import Mathlib

/-!
Verification of the extendedbot position-lifecycle engine.

This file embeds the core of the repository in Lean 4 and proves properties
of the embedded code:

* `order_manager.py`: `quantize`, `open_all_positions`, `close_all_positions`,
  `get_market_prices_for_pairs`;
* `position_manager.py`: `get_current_positions`, `validate_position_sizes`;
* `scheduler.py`: `should_close_positions`;
* `trading_bot.py`: `_verify_opening`, `TradingBot.stop`;
* `main.py`: `signal_handler`.

Python floats are modelled as exact rationals (ℚ); Python's decimal rounding
(`round(x, n)` and `f"{x:.df}"` formatting) is modelled as round-half-to-even
over ℚ.  Dicts are modelled as insertion-ordered association lists.  Code that
may raise (division) is modelled in `Except String`.  Venue side effects
(order placement, cancellation) are modelled as an emitted trace of actions,
with placement outcomes supplied by an oracle.
-/

namespace ExtendedBot

/-- Round a rational to the nearest integer, ties to even: the rounding used by
Python's `round` builtin and by fixed-point `%f` formatting, idealized over
exact rationals. -/
def roundHalfEven (x : ℚ) : ℤ :=
  if x - ⌊x⌋ < 1/2 then ⌊x⌋
  else if 1/2 < x - ⌊x⌋ then ⌊x⌋ + 1
  else if ⌊x⌋ % 2 = 0 then ⌊x⌋ else ⌊x⌋ + 1

/-- Round `x` to `d` decimal places (Python `round(x, d)` over exact rationals). -/
def roundDec (d : ℕ) (x : ℚ) : ℚ := (roundHalfEven (x * 10 ^ d) : ℚ) / 10 ^ d

/-- Decimal digits of a natural number, least significant first; fuel-based so
that the kernel can evaluate it. -/
def natDigitsAux : ℕ → ℕ → List ℕ
  | 0, _ => []
  | _ + 1, 0 => []
  | fuel + 1, n + 1 => (n + 1) % 10 :: natDigitsAux fuel ((n + 1) / 10)

/-- Decimal digits of `n`, least significant first (`[]` for 0). -/
def natDigitsLE (n : ℕ) : List ℕ := natDigitsAux n n

/-- The character for a decimal digit. -/
def digitChar (d : ℕ) : Char := Char.ofNat (48 + d)

/-- Decimal numeral of a natural number, as characters. -/
def natToChars (n : ℕ) : List Char :=
  if n = 0 then ['0'] else (natDigitsLE n).reverse.map digitChar

/-- Left-pad a digit string with `'0'` to width `d`. -/
def padZeros (d : ℕ) (l : List Char) : List Char :=
  List.replicate (d - l.length) '0' ++ l

/-- The digit string of the fixed-point number `n / 10^d` with exactly `d`
decimal places (`n` the integer numerator): the output shape of Python's
fixed-point formatting. -/
def renderFixed (d : ℕ) (n : ℤ) : List Char :=
  if d = 0 then (if n < 0 then ['-'] else []) ++ natToChars n.natAbs
  else (if n < 0 then ['-'] else []) ++ natToChars (n.natAbs / 10 ^ d) ++ ['.'] ++
    padZeros d (natToChars (n.natAbs % 10 ^ d))

/-- Python `f"{x:.df}"` over ℚ, as characters: round to `d` decimal places
(half to even), then render with exactly `d` decimal places. -/
def formatChars (d : ℕ) (x : ℚ) : List Char := renderFixed d (roundHalfEven (x * 10 ^ d))

/-- Python `f"{x:.df}"` over ℚ. -/
def formatFixed (d : ℕ) (x : ℚ) : String := String.mk (formatChars d x)

/-- Remove all trailing occurrences of `c` (Python `str.rstrip(c)`). -/
def dropTrailing (c : Char) (l : List Char) : List Char :=
  (l.reverse.dropWhile (fun x => x == c)).reverse

/-- The characters after the first `'.'`, if any (`s.split('.')[1]` when
`'.' in s`, for a string with at most one dot). -/
def takeAfterDot : List Char → Option (List Char)
  | [] => none
  | c :: cs => if c = '.' then some cs else takeAfterDot cs

/-- The characters before the first `'.'`. -/
def takeBeforeDot : List Char → List Char
  | [] => []
  | c :: cs => if c = '.' then [] else c :: takeBeforeDot cs

/-- Decimal places of a formatted step string after stripping trailing zeros and
a trailing dot: `len(step_str.split('.')[1])` if `'.' in step_str` else `0`. -/
def placesOfChars (l : List Char) : ℕ :=
  match takeAfterDot (dropTrailing '.' (dropTrailing '0' l)) with
  | some frac => frac.length
  | none => 0

/-- Number of decimal places the order manager derives from a step size
(order_manager.py lines 26-35): `0` if `step ≥ 1`, otherwise the fractional
length of `f"{step:.10f}"` stripped of trailing `'0'`s and a trailing `'.'`. -/
def stepDecimalPlaces (step : ℚ) : ℕ :=
  if 1 ≤ step then 0 else placesOfChars (formatChars 10 step)

/-- The numeric figure computed by `quantize` before formatting
(order_manager.py lines 22-24): `ceil(value/step) * step` rounded to 10
decimal digits. -/
def quantizeRaw (value step : ℚ) : ℚ := roundDec 10 ((⌈value / step⌉ : ℤ) * step)

/-- Embedding of `OrderManager.quantize` (order_manager.py lines 19-37): ceil to the step
grid, round to 10 decimals, format with the step-derived decimal places. -/
def quantize (value step : ℚ) : String :=
  formatFixed (stepDecimalPlaces step) (quantizeRaw value step)

/-- The numeric value denoted by the string `quantize value step` (what
`float(...)` of it yields in the source): the quantized figure rounded once
more to the formatted number of decimal places. -/
def quantizeVal (value step : ℚ) : ℚ :=
  roundDec (stepDecimalPlaces step) (quantizeRaw value step)

/-- Numeric value of a decimal digit character. -/
def digitVal (c : Char) : ℕ := c.toNat - 48

/-- Natural number denoted by a digit string (most significant first). -/
def natOfChars (l : List Char) : ℕ := l.foldl (fun a c => 10 * a + digitVal c) 0

/-- Rational denoted by an unsigned decimal numeral such as `100.01`. -/
def ratOfNonnegChars (l : List Char) : ℚ :=
  let intPart : ℚ := natOfChars (takeBeforeDot l)
  match takeAfterDot l with
  | none => intPart
  | some frac => intPart + (natOfChars frac : ℚ) / 10 ^ frac.length

/-- Rational denoted by a decimal numeral string, e.g. `"-100.01"` (the value
Python's `float` assigns to such a string, exactly). -/
def ratOfDecimalString (s : String) : ℚ :=
  match s.data with
  | '-' :: rest => -(ratOfNonnegChars rest)
  | l => ratOfNonnegChars l

/-- One venue position record, as normalized by
`PositionManager.get_current_positions` (position_manager.py lines 39-45). -/
structure Position where
  size : ℚ
  side : String
  unrealized_pnl : ℚ
  mark_price : ℚ
  leverage : ℚ
deriving DecidableEq

/-- A positions dict keyed by market, in insertion order. -/
abbrev Positions := List (String × Position)

/-- Python `dict.get`. -/
def dictGet {α : Type} : List (String × α) → String → Option α
  | [], _ => none
  | (k, v) :: rest, key => if k = key then some v else dictGet rest key

/-- Python `dict.__setitem__`: replace in place if the key exists, else append. -/
def dictInsert {α : Type} (d : List (String × α)) (k : String) (v : α) :
    List (String × α) :=
  if d.any (fun p => decide (p.1 = k)) then
    d.map (fun p => if p.1 = k then (k, v) else p)
  else d ++ [(k, v)]

/-- One configured leg: `{pair, target_size}` as produced by
`Config.get_all_long_pairs` / `get_all_short_pairs`. The target size is the
target notional in dollars. -/
structure PairConfig where
  pair : String
  target_size : ℚ
deriving DecidableEq

/-- position_manager.py line 71. -/
def TOLERANCE : ℚ := 1/100

/-- Embedding of `PositionManager.get_position_notional_value` (position_manager.py lines 52-54). -/
def get_position_notional_value (p : Position) : ℚ := |p.size| * p.mark_price

/-- One entry of the validation-details dict: either the
`{'valid': False, 'reason': 'Position not found'}` record or the full record
(position_manager.py lines 79-80 and 97-104). `diff_pct = none` models the
Python `float('inf')` written when the target is not positive. -/
inductive PairResult where
  | notFound
  | checked (valid : Bool) (actual_notional target_notional : ℚ)
      (diff_pct : Option ℚ) (mark_price position_size : ℚ)
deriving DecidableEq

/-- The `'valid'` field of a detail record (`False` for the not-found record). -/
def PairResult.valid : PairResult → Bool
  | .notFound => false
  | .checked v _ _ _ _ _ => v

/-- Python division, which raises `ZeroDivisionError` on a zero denominator. -/
def pdiv (a b : ℚ) : Except String ℚ :=
  if b = 0 then .error "ZeroDivisionError" else .ok (a / b)

/-- The body of the per-pair loop of `validate_position_sizes`
(position_manager.py lines 74-104). -/
def validatePair (positions : Positions) (cfg : PairConfig) :
    Except String PairResult :=
  match dictGet positions cfg.pair with
  | none => .ok .notFound
  | some position =>
    let actual_notional := get_position_notional_value position
    let target_notional := cfg.target_size
    if 0 < target_notional then do
      let diff_pct ← pdiv |actual_notional - target_notional| target_notional
      pure (.checked (decide (diff_pct ≤ TOLERANCE)) actual_notional target_notional
        (some diff_pct) position.mark_price position.size)
    else
      pure (.checked false actual_notional target_notional none
        position.mark_price position.size)

/-- Embedding of `PositionManager.validate_position_sizes` (position_manager.py lines
56-107): empty basket is invalid; otherwise build the per-pair results dict
and require every entry valid. -/
def validate_position_sizes (positions : Positions)
    (expected_pairs : List PairConfig) :
    Except String (Bool × List (String × PairResult)) :=
  if expected_pairs = [] then pure (false, [])
  else do
    let results ← expected_pairs.foldlM
      (fun acc cfg => do
        let r ← validatePair positions cfg
        pure (dictInsert acc cfg.pair r)) []
    pure (results.all (fun p => p.2.valid), results)

/-- A timezone-local instant: calendar date (as a day number) and time of day
in seconds since midnight. -/
structure SchedTime where
  date : ℤ
  tod : ℤ
deriving DecidableEq

/-- Embedding of `Scheduler.should_close_positions` (scheduler.py lines 39-87).
`open_time`/`close_time` are seconds since midnight; `time_diff` of the source
(seconds from the close datetime to now, both on the same calendar date)
is `now.tod - close_time`. -/
def should_close_positions (open_time close_time : ℤ)
    (last_trading_day : Option ℤ) (now : SchedTime) : Bool :=
  match last_trading_day with
  | none => false
  | some last_day =>
    if close_time < open_time then
      let expected_close_date := last_day + 1
      if expected_close_date < now.date then true
      else if now.date = expected_close_date then decide (-60 ≤ now.tod - close_time)
      else false
    else
      if last_day ≠ now.date then
        if last_day < now.date then true else false
      else decide (-60 ≤ now.tod - close_time)

/-- trading_bot.py line 30. -/
inductive BotState
  | WAITING
  | OPENING
  | OPEN
  | CLOSING
deriving DecidableEq

/-- The bot-state fields touched by `_verify_opening`: the state string and the
scheduler's `last_trading_day`. -/
structure BotSnapshot where
  bot_state : BotState
  last_trading_day : Option ℤ
deriving DecidableEq

/-- Embedding of `TradingBot._verify_opening` (trading_bot.py lines 215-276): validate the
fetched positions; on failure wait and re-fetch (`snap2`), validate once more;
mark the trading day and go OPEN on success, fall back to WAITING otherwise.
The two position fetches are passed in as the snapshots they produced. -/
def verify_opening (expected_pairs : List PairConfig) (snap1 snap2 : Positions)
    (today : ℤ) (s : BotSnapshot) : Except String BotSnapshot :=
  if expected_pairs = [] then .error "ValueError: No pairs configured"
  else do
    let r1 ← validate_position_sizes snap1 expected_pairs
    if r1.1 then
      pure { s with bot_state := .OPEN, last_trading_day := some today }
    else do
      let r2 ← validate_position_sizes snap2 expected_pairs
      if r2.1 then
        pure { s with bot_state := .OPEN, last_trading_day := some today }
      else
        pure { s with bot_state := .WAITING }

inductive OrderSide
  | BUY
  | SELL
deriving DecidableEq

inductive TimeInForce
  | IOC
  | GTT
deriving DecidableEq

/-- One `place_order` call (order_manager.py lines 92-130): always submitted
with `TimeInForce.IOC`. -/
structure OrderAttempt where
  market : String
  side : OrderSide
  qty : String
  price : String
  tif : TimeInForce
deriving DecidableEq

/-- An irreversible venue action emitted by the order manager. -/
inductive VenueAction
  | cancelAllOrders
  | place (o : OrderAttempt)
deriving DecidableEq

/-- Embedding of `Config.PRICE_BUFFER` (config.py line 58): 0.75%. -/
def PRICE_BUFFER : ℚ := 75/10000

/-- Venue market precision (order_manager.py lines 152-173). -/
structure MarketPrecision where
  asset_precision : ℤ
  min_order_size : ℚ
  min_order_size_change : ℚ
  min_price_change : ℚ
deriving DecidableEq

/-- The raw (pre-quantization) limit price of an opening leg: buffered ask for
a long leg, buffered bid for a short leg. -/
def legPriceRaw (buffer : ℚ) (prices : String → ℚ × ℚ) (isLong : Bool)
    (cfg : PairConfig) : ℚ :=
  if isLong then (prices cfg.pair).1 * (1 + buffer)
  else (prices cfg.pair).2 * (1 - buffer)

/-- The order built by the per-leg loop of `open_all_positions`
(order_manager.py lines 231-245): price = quantized buffered price (ask side
for a long leg, bid side for a short leg); `qty_raw = target_size /
float(price)` -- `quantizeVal` plays the role of `float` applied to the
quantized price string -- raised to the venue minimum order size when below
it, then quantized to the size step; always placed with `TimeInForce.IOC`. -/
def openOrder (buffer : ℚ) (prices : String → ℚ × ℚ)
    (precisions : String → MarketPrecision) (isLong : Bool)
    (cfg : PairConfig) : OrderAttempt :=
  ⟨cfg.pair, if isLong then .BUY else .SELL,
    quantize
      (if cfg.target_size / quantizeVal (legPriceRaw buffer prices isLong cfg)
            ((precisions cfg.pair).min_price_change) <
          (precisions cfg.pair).min_order_size
        then (precisions cfg.pair).min_order_size
        else cfg.target_size / quantizeVal (legPriceRaw buffer prices isLong cfg)
          ((precisions cfg.pair).min_price_change))
      ((precisions cfg.pair).min_order_size_change),
    quantize (legPriceRaw buffer prices isLong cfg)
      ((precisions cfg.pair).min_price_change),
    .IOC⟩

/-- The body of the per-leg loop of `open_all_positions` (order_manager.py
lines 223-300; the long and short iterations differ only in the price
formula and the side). `placeLeg n` is the venue's response to the leg's
n-th placement attempt. A zero quantized price makes
`target_size / float(price)` raise `ZeroDivisionError`, which the per-leg
handler catches, recording the leg as failed with no attempt placed (lines
258-260); a failed first attempt is retried exactly once (lines 249-256). -/
def openLeg (buffer : ℚ) (prices : String → ℚ × ℚ)
    (precisions : String → MarketPrecision) (placeLeg : ℕ → Bool)
    (isLong : Bool) (cfg : PairConfig) : Bool × List VenueAction :=
  if quantizeVal (legPriceRaw buffer prices isLong cfg)
      ((precisions cfg.pair).min_price_change) = 0 then (false, [])
  else
    if placeLeg 0 then
      (true, [VenueAction.place (openOrder buffer prices precisions isLong cfg)])
    else
      (placeLeg 1,
        [VenueAction.place (openOrder buffer prices precisions isLong cfg),
          VenueAction.place (openOrder buffer prices precisions isLong cfg)])

/-- The legs processed by `open_all_positions`, in iteration order: all long
pairs (flag `true`) then all short pairs (flag `false`). -/
def legsOf (long_pairs short_pairs : List PairConfig) : List (Bool × PairConfig) :=
  long_pairs.map (fun c => (true, c)) ++ short_pairs.map (fun c => (false, c))

/-- Run the legs sequentially, giving leg number `i` the placement oracle
`place i`, and pairing each leg's market with its outcome and emitted
attempts. -/
def runOpenLegs (buffer : ℚ) (prices : String → ℚ × ℚ)
    (precisions : String → MarketPrecision) (place : ℕ → ℕ → Bool) (i : ℕ) :
    List (Bool × PairConfig) → List (String × Bool × List VenueAction)
  | [] => []
  | leg :: rest =>
    (leg.2.pair, openLeg buffer prices precisions (place i) leg.1 leg.2) ::
      runOpenLegs buffer prices precisions place (i + 1) rest

/-- Embedding of `OrderManager.open_all_positions` (order_manager.py lines 191-311):
cancel all resting orders, bail out on an empty basket, run every leg, record
each leg's final outcome in the `results` dict (keyed by market, later writes
overwriting earlier ones), and succeed iff all recorded values are true.
Prices and precisions are passed as total maps, modelling the successful
batch fetches of lines 213-218. -/
def open_all_positions (buffer : ℚ) (long_pairs short_pairs : List PairConfig)
    (prices : String → ℚ × ℚ) (precisions : String → MarketPrecision)
    (place : ℕ → ℕ → Bool) : Bool × List VenueAction :=
  if long_pairs.map PairConfig.pair ++ short_pairs.map PairConfig.pair = [] then
    (false, [VenueAction.cancelAllOrders])
  else
    let runs := runOpenLegs buffer prices precisions place 0 (legsOf long_pairs short_pairs)
    let results := runs.foldl (fun acc r => dictInsert acc r.1 r.2.1) []
    (results.all (fun p => p.2),
      VenueAction.cancelAllOrders :: runs.foldr (fun r acc => r.2.2 ++ acc) [])

/-- Python `str.upper`. -/
def strUpper (s : String) : String := String.mk (s.data.map Char.toUpper)

/-- The per-position loop of `close_all_positions` (order_manager.py lines
332-358): skip dust positions, sell a long at the buffered bid, buy a short
back at the buffered ask, quantity the absolute position size quantized to the
step. `place i` is the venue's response to the i-th placement; the source
drops that boolean, so it is bound and ignored here too. -/
def closeRun (buffer : ℚ) (prices : String → ℚ × ℚ)
    (precisions : String → MarketPrecision) (place : ℕ → Bool) (i : ℕ) :
    Positions → List VenueAction
  | [] => []
  | (pair, position) :: rest =>
    let size := |position.size|
    if size ≤ 1/100000 then closeRun buffer prices precisions place i rest
    else
      let precision := precisions pair
      let ask := (prices pair).1
      let bid := (prices pair).2
      let order : OrderAttempt :=
        if strUpper position.side = "LONG" then
          ⟨pair, .SELL, quantize size precision.min_order_size_change,
            quantize (bid * (1 - buffer)) precision.min_price_change, .IOC⟩
        else
          ⟨pair, .BUY, quantize size precision.min_order_size_change,
            quantize (ask * (1 + buffer)) precision.min_price_change, .IOC⟩
      let _ok := place i
      VenueAction.place order :: closeRun buffer prices precisions place (i + 1) rest

/-- Embedding of `OrderManager.close_all_positions` (order_manager.py lines 313-364):
return `true` immediately for an empty snapshot, otherwise cancel resting
orders, place one close order per non-dust position, and return `true` --
the boolean results of the placements are never consulted. -/
def close_all_positions (buffer : ℚ) (positions : Positions)
    (prices : String → ℚ × ℚ) (precisions : String → MarketPrecision)
    (place : ℕ → Bool) : Bool × List VenueAction :=
  if positions = [] then (true, [])
  else
    (true, VenueAction.cancelAllOrders ::
      closeRun buffer prices precisions place 0 positions)

/-- Embedding of `PositionManager.get_current_positions` (position_manager.py lines 21-50):
build the positions dict from the fetched rows, keeping only rows with
`|size| > 0.00001`; any exception is caught and an empty dict returned.
`fetch` is the single venue call the function performs. -/
def get_current_positions (fetch : Except String (List (String × Position))) :
    Positions :=
  match fetch with
  | .error _ => []
  | .ok rows =>
    rows.foldl
      (fun acc row =>
        if 1/100000 < |row.2.size| then dictInsert acc row.1 row.2 else acc) []

/-- Embedding of `OrderManager.get_market_prices_for_pairs` (order_manager.py lines 61-90):
fetch `(ask, bid)` per pair in order; the first failure is logged and
re-raised, aborting the whole call. -/
def get_market_prices_for_pairs (pairs : List String)
    (fetch : String → Except String (ℚ × ℚ)) :
    Except String (List (String × (ℚ × ℚ))) :=
  pairs.foldlM (fun acc pair => do
    let pr ← fetch pair
    pure (dictInsert acc pair pr)) []

/-- The engine state touched by `TradingBot.stop`. -/
structure EngineState where
  is_running : Bool
deriving DecidableEq

/-- Embedding of `TradingBot.stop` (trading_bot.py lines 326-329): clear the running flag
and log; the returned list is the venue actions performed, of which there are
none. -/
def TradingBot.stop (_s : EngineState) : EngineState × List VenueAction :=
  ({ is_running := false }, [])

/-- Embedding of `signal_handler` (main.py lines 15-18): log and exit 0. Returns the
venue actions performed before exiting (none) and the exit code. -/
def signal_handler (_signum : ℤ) : List VenueAction × ℤ := ([], 0)

/-- The pure value of `validatePair` (which never actually raises, since the
division is guarded by `0 < target`): used to state its behaviour. -/
def pureResult (positions : Positions) (cfg : PairConfig) : PairResult :=
  match dictGet positions cfg.pair with
  | none => .notFound
  | some position =>
    let actual_notional := get_position_notional_value position
    let target_notional := cfg.target_size
    if 0 < target_notional then
      .checked (decide (|actual_notional - target_notional| / target_notional ≤ TOLERANCE))
        actual_notional target_notional
        (some (|actual_notional - target_notional| / target_notional))
        position.mark_price position.size
    else
      .checked false actual_notional target_notional none
        position.mark_price position.size

/-- The pure value of `validate_position_sizes`. -/
def pureValidate (positions : Positions) (expected_pairs : List PairConfig) :
    Bool × List (String × PairResult) :=
  if expected_pairs = [] then (false, [])
  else
    let results := expected_pairs.foldl
      (fun acc cfg => dictInsert acc cfg.pair (pureResult positions cfg)) []
    (results.all (fun p => p.2.valid), results)

/-- The per-pair condition actually enforced by the validator: a position
exists for the pair, the target notional is strictly positive, and
`|actualNotional - targetNotional| / targetNotional ≤ 1%`. -/
def specPairOk (positions : Positions) (cfg : PairConfig) : Prop :=
  ∃ pos, dictGet positions cfg.pair = some pos ∧ 0 < cfg.target_size ∧
    |(|pos.size| * pos.mark_price) - cfg.target_size| / cfg.target_size ≤ 1/100

/-- Direction of a basket leg, as the spec's data model has it. -/
inductive Direction
  | long
  | short
deriving DecidableEq

/-- A `PairTarget` of the spec's data model: pair, target notional, direction. -/
structure PairTarget where
  pair : String
  targetNotional : ℚ
  direction : Direction

/-- The condition that the position side string matches the target direction. -/
def sideMatches (d : Direction) (side : String) : Prop :=
  (d = .long ∧ side = "LONG") ∨ (d = .short ∧ side = "SHORT")

/-- Forget the direction: what the code actually receives for a target. -/
def PairTarget.toConfig (t : PairTarget) : PairConfig := ⟨t.pair, t.targetNotional⟩

/-- Validity as the claim words it: non-empty basket and, for each pair
target, an existing position with matching side whose notional is within 1%
of the target notional. -/
def specClaimValid (positions : Positions) (basket : List PairTarget) : Prop :=
  basket ≠ [] ∧ ∀ t ∈ basket, ∃ pos, dictGet positions t.pair = some pos ∧
    sideMatches t.direction pos.side ∧
    |(|pos.size| * pos.mark_price) - t.targetNotional| / t.targetNotional ≤ 1/100

/-- The order the claim specifies for an opening leg: quantized buffered
price; quantity = target notional over the quantized price, raised to the
venue minimum order size, then quantized to the size step; immediate or
cancel. -/
def specOpenOrder (buffer : ℚ) (prices : String → ℚ × ℚ)
    (precisions : String → MarketPrecision) (isLong : Bool)
    (cfg : PairConfig) : OrderAttempt :=
  ⟨cfg.pair, if isLong then .BUY else .SELL,
    quantize
      (max (cfg.target_size /
          quantizeVal (legPriceRaw buffer prices isLong cfg)
            ((precisions cfg.pair).min_price_change))
        ((precisions cfg.pair).min_order_size))
      ((precisions cfg.pair).min_order_size_change),
    quantize (legPriceRaw buffer prices isLong cfg)
      ((precisions cfg.pair).min_price_change),
    .IOC⟩

/-- The placement trace the claim specifies for the basket: per leg, one
attempt, plus exactly one retry of the same order if the first attempt
failed; a leg's failure does not block the remaining legs. -/
def specOpenTrace (buffer : ℚ) (prices : String → ℚ × ℚ)
    (precisions : String → MarketPrecision) (place : ℕ → ℕ → Bool) (i : ℕ) :
    List (Bool × PairConfig) → List VenueAction
  | [] => []
  | leg :: rest =>
    (if place i 0 then
      [VenueAction.place (specOpenOrder buffer prices precisions leg.1 leg.2)]
     else [VenueAction.place (specOpenOrder buffer prices precisions leg.1 leg.2),
       VenueAction.place (specOpenOrder buffer prices precisions leg.1 leg.2)]) ++
      specOpenTrace buffer prices precisions place (i + 1) rest

/-- The close order the claim specifies for an open position: a long position
is sold at the buffered bid, a short position is bought back at the buffered
ask, with quantity the absolute current position size quantized to the size
step. -/
def specCloseOrder (buffer : ℚ) (prices : String → ℚ × ℚ)
    (precision : MarketPrecision) (pair : String) (position : Position) : OrderAttempt :=
  if strUpper position.side = "LONG" then
    ⟨pair, .SELL, quantize |position.size| precision.min_order_size_change,
      quantize ((prices pair).2 * (1 - buffer)) precision.min_price_change, .IOC⟩
  else
    ⟨pair, .BUY, quantize |position.size| precision.min_order_size_change,
      quantize ((prices pair).1 * (1 + buffer)) precision.min_price_change, .IOC⟩

/-- One close attempt per position with `|size|` above the dust threshold. -/
def specCloseTrace (buffer : ℚ) (prices : String → ℚ × ℚ)
    (precisions : String → MarketPrecision) : Positions → List VenueAction
  | [] => []
  | (pair, position) :: rest =>
    (if |position.size| ≤ 1/100000 then []
     else [VenueAction.place (specCloseOrder buffer prices (precisions pair) pair position)]) ++
      specCloseTrace buffer prices precisions rest

/-- Holds when `q` is exactly a decimal number with `d` decimal places. -/
def hasPlaces (q : ℚ) (d : ℕ) : Prop := ∃ n : ℤ, q * 10 ^ d = (n : ℚ)

/-- Holds when `d` is the number of decimal places `q` has: `d` places suffice and no
smaller number does. -/
def isMinPlaces (q : ℚ) (d : ℕ) : Prop := hasPlaces q d ∧ ∀ e < d, ¬ hasPlaces q e

theorem roundHalfEven_intCast (n : ℤ) : roundHalfEven (n : ℚ) = n := by
  unfold roundHalfEven
  rw [Int.floor_intCast]
  norm_num

theorem roundDec_of_intCast (d : ℕ) (x : ℚ) (N : ℤ) (h : x * 10 ^ d = (N : ℚ)) :
    roundDec d x = (N : ℚ) / 10 ^ d := by
  unfold roundDec
  rw [h, roundHalfEven_intCast]

theorem formatFixed_eval (d : ℕ) (x : ℚ) (N : ℤ) (h : x * 10 ^ d = (N : ℚ)) :
    formatFixed d x = String.mk (renderFixed d N) := by
  unfold formatFixed formatChars
  rw [h, roundHalfEven_intCast]

theorem stepDecimalPlaces_eval (step : ℚ) (N : ℤ) (h1 : ¬ 1 ≤ step)
    (h2 : step * 10 ^ 10 = (N : ℚ)) :
    stepDecimalPlaces step = placesOfChars (renderFixed 10 N) := by
  unfold stepDecimalPlaces formatChars
  rw [if_neg h1, h2, roundHalfEven_intCast]

theorem quantize_eval (value step : ℚ) (c N M : ℤ) (d : ℕ)
    (hd : stepDecimalPlaces step = d)
    (hc : (⌈value / step⌉ : ℤ) = c)
    (hN : (c : ℚ) * step * 10 ^ 10 = (N : ℚ))
    (hM : (N : ℚ) / 10 ^ 10 * 10 ^ d = (M : ℚ)) :
    quantize value step = String.mk (renderFixed d M) ∧
      quantizeVal value step = (M : ℚ) / 10 ^ d := by
  have hraw : quantizeRaw value step = (N : ℚ) / 10 ^ 10 := by
    unfold quantizeRaw
    rw [hc]
    exact roundDec_of_intCast _ _ _ hN
  refine ⟨?_, ?_⟩
  · unfold quantize
    rw [hraw, hd]
    exact formatFixed_eval _ _ _ hM
  · unfold quantizeVal
    rw [hraw, hd]
    exact roundDec_of_intCast _ _ _ hM

theorem stepDecimalPlaces_centi : stepDecimalPlaces (1/100) = 2 := by
  rw [stepDecimalPlaces_eval (1/100) (10 ^ 8) (by norm_num) (by norm_num)]
  decide

theorem except_bind_error {α β : Type} (e : String) (f : α → Except String β) :
    ((Except.error e : Except String α) >>= f) = Except.error e := rfl

theorem except_bind_ok {α β : Type} (a : α) (f : α → Except String β) :
    ((Except.ok a : Except String α) >>= f) = f a := rfl

theorem except_pure {α : Type} (a : α) :
    (pure a : Except String α) = Except.ok a := rfl

theorem except_bind_pure {α β : Type} (a : α) (f : α → Except String β) :
    ((pure a : Except String α) >>= f) = f a := rfl

theorem validatePair_eq (positions : Positions) (cfg : PairConfig) :
    validatePair positions cfg = .ok (pureResult positions cfg) := by
  cases hg : dictGet positions cfg.pair with
  | none => simp [validatePair, pureResult, hg]
  | some position =>
    by_cases ht : 0 < cfg.target_size
    · simp [validatePair, pureResult, hg, ht, pdiv, ne_of_gt ht,
        get_position_notional_value, except_pure, except_bind_ok]
    · simp [validatePair, pureResult, hg, ht, except_pure]

theorem validateFold_eq (positions : Positions) :
    ∀ (l : List PairConfig) (acc : List (String × PairResult)),
      (l.foldlM (fun acc cfg => do
        let r ← validatePair positions cfg
        pure (dictInsert acc cfg.pair r)) acc :
          Except String (List (String × PairResult))) =
      .ok (l.foldl (fun acc cfg => dictInsert acc cfg.pair (pureResult positions cfg)) acc)
  | [], _ => rfl
  | cfg :: rest, acc => by
    rw [List.foldl_cons]
    simp only [List.foldlM_cons]
    rw [validatePair_eq]
    exact validateFold_eq positions rest _

theorem validate_position_sizes_eq (positions : Positions)
    (expected_pairs : List PairConfig) :
    validate_position_sizes positions expected_pairs =
      .ok (pureValidate positions expected_pairs) := by
  unfold validate_position_sizes pureValidate
  by_cases he : expected_pairs = []
  · rw [if_pos he, if_pos he]
    rfl
  · rw [if_neg he, if_neg he, validateFold_eq]
    rfl

/-- C10: position validation divides by the target notional only under the
strictly-positive guard; for a pair whose target is zero or negative, the
pair is reported invalid with infinite deviation (`diff_pct = none`), and
`validate_position_sizes` is total: it never propagates a
`ZeroDivisionError`. -/
theorem C10_validation_total_and_guarded :
    (∀ (positions : Positions) (expected_pairs : List PairConfig),
      ∃ r, validate_position_sizes positions expected_pairs = .ok r) ∧
    (∀ (positions : Positions) (cfg : PairConfig) (p : Position),
      dictGet positions cfg.pair = some p → cfg.target_size ≤ 0 →
      validatePair positions cfg =
        .ok (.checked false (|p.size| * p.mark_price) cfg.target_size none
          p.mark_price p.size)) := by
  constructor
  · intro positions expected_pairs
    exact ⟨_, validate_position_sizes_eq positions expected_pairs⟩
  · intro positions cfg p hget hle
    rw [validatePair_eq]
    simp [pureResult, hget, not_lt.mpr hle, get_position_notional_value]

theorem C10_witness :
    validatePair [("BTC-USD", ⟨1, "LONG", 0, 5, 1⟩)] ⟨"BTC-USD", 0⟩ =
      .ok (.checked false (|(1 : ℚ)| * 5) 0 none 5 1) :=
  C10_validation_total_and_guarded.2 [("BTC-USD", ⟨1, "LONG", 0, 5, 1⟩)]
    ⟨"BTC-USD", 0⟩ ⟨1, "LONG", 0, 5, 1⟩ (by simp [dictGet]) le_rfl

/-- C6: the shutdown path performs no venue action at all: `TradingBot.stop`
only clears the running flag, and the process signal handler exits with code
0 without cancelling any order or closing any position, so no
cancel-then-close sweep happens. -/
theorem C6_shutdown_performs_no_sweep :
    (∀ s : EngineState, TradingBot.stop s = ({ is_running := false }, [])) ∧
    (∀ signum : ℤ, signal_handler signum = ([], 0)) :=
  ⟨fun _ => rfl, fun _ => rfl⟩

theorem pricesFold_ok_iff (fetch : String → Except String (ℚ × ℚ)) :
    ∀ (pairs : List String) (acc : List (String × (ℚ × ℚ))),
      ((∃ m, (pairs.foldlM (fun acc pair => do
          let pr ← fetch pair
          pure (dictInsert acc pair pr)) acc :
            Except String (List (String × (ℚ × ℚ)))) = .ok m) ↔
        ∀ p ∈ pairs, ∃ v, fetch p = .ok v)
  | [], acc => by
    constructor
    · intro _ p hp
      cases hp
    · intro _
      exact ⟨acc, rfl⟩
  | pair :: rest, acc => by
    simp only [List.foldlM_cons]
    cases hf : fetch pair with
    | error e =>
      simp only [hf, except_bind_error]
      constructor
      · rintro ⟨m, hm⟩
        cases hm
      · intro h
        obtain ⟨v, hv⟩ := h pair (List.mem_cons_self pair rest)
        rw [hf] at hv
        cases hv
    | ok v =>
      simp only [hf, except_bind_ok, except_bind_pure]
      rw [pricesFold_ok_iff fetch rest (dictInsert acc pair v)]
      constructor
      · intro h p hp
        rcases List.mem_cons.mp hp with hp | hp
        · exact ⟨v, by rw [hp, hf]⟩
        · exact h p hp
      · intro h p hp
        exact h p (List.mem_cons_of_mem pair hp)

/-- C7 (amended): a failed position fetch is not retried at the call site: the
exception is swallowed and an empty positions dict returned, which the state
machine processes like a normal snapshot; a failed price fetch is re-raised
and aborts the whole batch: `get_market_prices_for_pairs` succeeds iff the
fetch of every requested pair succeeds. -/
theorem C7_fetch_error_behaviour :
    (∀ e, get_current_positions (.error e) = []) ∧
    (∀ (pairs : List String) (fetch : String → Except String (ℚ × ℚ)),
      (∃ m, get_market_prices_for_pairs pairs fetch = .ok m) ↔
        ∀ p ∈ pairs, ∃ v, fetch p = .ok v) := by
  constructor
  · intro e
    rfl
  · intro pairs fetch
    exact pricesFold_ok_iff fetch pairs []

theorem C7_witness :
    ∃ m, get_market_prices_for_pairs ["BTC-USD"] (fun _ => .ok (2, 1)) = .ok m :=
  (C7_fetch_error_behaviour.2 ["BTC-USD"] (fun _ => .ok (2, 1))).mpr
    (fun _ _ => ⟨(2, 1), rfl⟩)

/-- C7 counterexample: a transient error on the position fetch is not retried
-- the call returns an empty dict -- and the verification step then advances
the state machine (OPENING falls back to WAITING) on that failed snapshot
instead of aborting the cycle. -/
theorem C7_counterexample :
    get_current_positions (.error "ReadTimeout") = [] ∧
    verify_opening [⟨"BTC-USD", 1000⟩] (get_current_positions (.error "ReadTimeout"))
        (get_current_positions (.error "ReadTimeout")) 20000 ⟨.OPENING, none⟩ =
      .ok ⟨.WAITING, none⟩ := by
  constructor
  · rfl
  · rfl

/-- C3 (amended): `should_close_positions` is false whenever the trading day
is unset; with trading day `d` set, in the cross-midnight configuration
(`closeTime < openTime`) it is true exactly for instants at or after 60
seconds before the close time on day `d+1` and unconditionally on any later
day, and in the same-day configuration (`closeTime ≥ openTime`) it is true
exactly for instants at or after 60 seconds before the close time on day `d`
and unconditionally on any later day. -/
theorem C3_should_close_characterization (open_time close_time d : ℤ)
    (now : SchedTime) :
    should_close_positions open_time close_time none now = false ∧
    (close_time < open_time →
      (should_close_positions open_time close_time (some d) now = true ↔
        (d + 1 < now.date ∨ (now.date = d + 1 ∧ close_time - 60 ≤ now.tod)))) ∧
    (open_time ≤ close_time →
      (should_close_positions open_time close_time (some d) now = true ↔
        (d < now.date ∨ (now.date = d ∧ close_time - 60 ≤ now.tod)))) := by
  refine ⟨rfl, fun h => ?_, fun h => ?_⟩
  · show (if close_time < open_time then _ else _) = true ↔ _
    rw [if_pos h]
    split_ifs with h1 h2 <;> simp <;> omega
  · show (if close_time < open_time then _ else _) = true ↔ _
    rw [if_neg (not_lt.mpr h)]
    split_ifs with h1 h2 <;> simp <;> omega

theorem C3_witness :
    should_close_positions 75600 21600 (some 0) ⟨1, 21600⟩ = true :=
  ((C3_should_close_characterization 75600 21600 0 ⟨1, 21600⟩).2.1 (by decide)).mpr
    (Or.inr (by constructor <;> decide))

/-- C3 counterexample: same-day schedule 09:00:00/17:00:00, trading day `0`;
at 16:59:30 on day `0` -- 30 seconds before the close time -- the code
already reports that positions should close, while the claim says the result
is false for all times before the close time on that day. -/
theorem C3_counterexample :
    should_close_positions 32400 61200 (some 0) ⟨0, 61170⟩ = true ∧
      (61170 : ℤ) < 61200 := by
  constructor
  · decide
  · decide

theorem pureResult_valid_iff (positions : Positions) (cfg : PairConfig) :
    (pureResult positions cfg).valid = true ↔ specPairOk positions cfg := by
  cases hg : dictGet positions cfg.pair with
  | none => simp [pureResult, specPairOk, hg, PairResult.valid]
  | some position =>
    by_cases ht : 0 < cfg.target_size
    · simp [pureResult, specPairOk, hg, ht, PairResult.valid,
        get_position_notional_value, TOLERANCE]
    · simp [pureResult, specPairOk, hg, ht, PairResult.valid]

theorem dictInsert_fresh {α : Type} (d : List (String × α)) (k : String) (v : α)
    (h : ∀ p ∈ d, p.1 ≠ k) : dictInsert d k v = d ++ [(k, v)] := by
  unfold dictInsert
  rw [if_neg]
  intro hx
  obtain ⟨p, hp, hpk⟩ := List.any_eq_true.mp hx
  exact h p hp (of_decide_eq_true hpk)

theorem foldl_dictInsert_eq_append {σ α : Type} (key : σ → String) (val : σ → α) :
    ∀ (l : List σ) (acc : List (String × α)),
      (∀ s ∈ l, ∀ p ∈ acc, p.1 ≠ key s) → (l.map key).Nodup →
      l.foldl (fun a s => dictInsert a (key s) (val s)) acc =
        acc ++ l.map (fun s => (key s, val s)) := by
  intro l
  induction l with
  | nil => intro acc _ _; simp
  | cons s rest ih =>
    intro acc hfresh hnd
    have hks : key s ∉ rest.map key := (List.nodup_cons.mp (by simpa using hnd)).1
    have hnd' : (rest.map key).Nodup := (List.nodup_cons.mp (by simpa using hnd)).2
    rw [List.foldl_cons, dictInsert_fresh acc (key s) (val s)
      (fun p hp => hfresh s (List.mem_cons_self s rest) p hp)]
    rw [ih (acc ++ [(key s, val s)]) ?_ hnd']
    · simp
    · intro t ht p hp
      rcases List.mem_append.mp hp with hp | hp
      · exact hfresh t (List.mem_cons_of_mem s ht) p hp
      · have hp' : p = (key s, val s) := by simpa using hp
        rw [hp']
        intro hEq
        apply hks
        have hEq' : key s = key t := hEq
        rw [hEq']
        exact List.mem_map_of_mem key ht

/-- C1 (amended): for a basket without duplicate pair names, position
validation returns allValid = true iff the basket is non-empty and, for each
pair target, a position exists for that pair with a strictly positive target
notional and `|actualNotional - targetNotional| / targetNotional ≤ 0.01`; the
position's side is not consulted, and an empty basket yields allValid =
false. -/
theorem C1_validate_allValid_iff (positions : Positions)
    (expected_pairs : List PairConfig)
    (hnd : (expected_pairs.map PairConfig.pair).Nodup) :
    ∃ b rs, validate_position_sizes positions expected_pairs = .ok (b, rs) ∧
      (b = true ↔ (expected_pairs ≠ [] ∧
        ∀ cfg ∈ expected_pairs, specPairOk positions cfg)) := by
  refine ⟨(pureValidate positions expected_pairs).1,
    (pureValidate positions expected_pairs).2, by rw [validate_position_sizes_eq], ?_⟩
  by_cases he : expected_pairs = []
  · simp [pureValidate, he]
  · have hres : expected_pairs.foldl
        (fun acc cfg => dictInsert acc cfg.pair (pureResult positions cfg)) [] =
        expected_pairs.map (fun cfg => (cfg.pair, pureResult positions cfg)) := by
      have h := foldl_dictInsert_eq_append PairConfig.pair
        (fun cfg => pureResult positions cfg) expected_pairs []
        (fun s _ p hp => absurd hp (List.not_mem_nil p)) hnd
      simpa using h
    have hfst : (pureValidate positions expected_pairs).1 =
        (expected_pairs.map (fun cfg => (cfg.pair, pureResult positions cfg))).all
          (fun p => p.2.valid) := by
      unfold pureValidate
      rw [if_neg he]
      simp only [hres]
    rw [hfst, List.all_eq_true]
    constructor
    · intro hall
      refine ⟨he, fun cfg hc => ?_⟩
      have h := hall (cfg.pair, pureResult positions cfg)
        (List.mem_map_of_mem _ hc)
      exact (pureResult_valid_iff positions cfg).mp h
    · rintro ⟨-, hall⟩
      intro x hx
      obtain ⟨cfg, hc, hxe⟩ := List.mem_map.mp hx
      rw [← hxe]
      exact (pureResult_valid_iff positions cfg).mpr (hall cfg hc)

theorem C1_witness :
    ∃ b rs, validate_position_sizes
        [("BTC-USD", ⟨1/100, "LONG", 0, 100000, 1⟩)] [⟨"BTC-USD", 1000⟩] =
        .ok (b, rs) ∧
      (b = true ↔ (([⟨"BTC-USD", 1000⟩] : List PairConfig) ≠ [] ∧
        ∀ cfg ∈ ([⟨"BTC-USD", 1000⟩] : List PairConfig),
          specPairOk [("BTC-USD", ⟨1/100, "LONG", 0, 100000, 1⟩)] cfg)) :=
  C1_validate_allValid_iff [("BTC-USD", ⟨1/100, "LONG", 0, 100000, 1⟩)]
    [⟨"BTC-USD", 1000⟩] (by decide)

/-- C1 counterexample: (a) a basket whose single Long target is covered by a
SHORT position of exactly the target notional validates as true, though the
claim requires the side to match; (b) a basket listing the same pair twice
(targets 1000 and 2000) against a single position of notional 2000 validates
as true, though the first target deviates by 100%: the results dict keeps
only the last entry per pair. -/
theorem C1_counterexample :
    (∃ rs, validate_position_sizes [("BTC-USD", ⟨1/100, "SHORT", 0, 100000, 1⟩)]
        ([⟨"BTC-USD", 1000, .long⟩].map PairTarget.toConfig) = .ok (true, rs) ∧
      ¬ specClaimValid [("BTC-USD", ⟨1/100, "SHORT", 0, 100000, 1⟩)]
          [⟨"BTC-USD", 1000, .long⟩]) ∧
    (∃ rs, validate_position_sizes [("P", ⟨1, "LONG", 0, 2000, 1⟩)]
        ([⟨"P", 1000, .long⟩, ⟨"P", 2000, .long⟩].map PairTarget.toConfig) =
          .ok (true, rs) ∧
      ¬ specClaimValid [("P", ⟨1, "LONG", 0, 2000, 1⟩)]
          [⟨"P", 1000, .long⟩, ⟨"P", 2000, .long⟩]) := by
  constructor
  · refine ⟨[("BTC-USD", .checked true 1000 1000 (some 0) 100000 (1/100))], ?_, ?_⟩
    · rw [validate_position_sizes_eq]
      norm_num [pureValidate, pureResult, dictGet, dictInsert, PairTarget.toConfig,
        PairResult.valid, get_position_notional_value, TOLERANCE, abs_of_pos,
        abs_zero, List.cons_ne_nil]
    · rintro ⟨-, h⟩
      obtain ⟨pos, hget, hside, -⟩ := h ⟨"BTC-USD", 1000, .long⟩ (by simp)
      rw [show dictGet [("BTC-USD", (⟨1/100, "SHORT", 0, 100000, 1⟩ : Position))]
        "BTC-USD" = some ⟨1/100, "SHORT", 0, 100000, 1⟩ from rfl] at hget
      injection hget with hpos
      rcases hside with ⟨-, hC⟩ | ⟨hD, -⟩
      · rw [← hpos] at hC
        exact absurd hC (by decide)
      · exact absurd hD (by decide)
  · refine ⟨[("P", .checked true 2000 2000 (some 0) 2000 1)], ?_, ?_⟩
    · rw [validate_position_sizes_eq]
      norm_num [pureValidate, pureResult, dictGet, dictInsert, PairTarget.toConfig,
        PairResult.valid, get_position_notional_value, TOLERANCE, abs_of_pos,
        abs_zero, abs_one, List.cons_ne_nil]
    · rintro ⟨-, h⟩
      obtain ⟨pos, hget, -, hdev⟩ := h ⟨"P", 1000, .long⟩ (by simp)
      rw [show dictGet [("P", (⟨1, "LONG", 0, 2000, 1⟩ : Position))] "P" =
        some ⟨1, "LONG", 0, 2000, 1⟩ from rfl] at hget
      injection hget with hpos
      rw [← hpos] at hdev
      norm_num at hdev

/-- C2: from OPENING, verification goes to OPEN and marks the trading day to
today when the first validation succeeds; otherwise it re-fetches and
validates exactly once more, going to OPEN (marking today) on success and
falling back to WAITING with the trading day unchanged when the retry also
fails. -/
theorem C2_verify_opening_behaviour (expected_pairs : List PairConfig)
    (snap1 snap2 : Positions) (today : ℤ) (s : BotSnapshot)
    (hne : expected_pairs ≠ []) (_hst : s.bot_state = .OPENING) :
    ∃ v1 rs1 v2 rs2,
      validate_position_sizes snap1 expected_pairs = .ok (v1, rs1) ∧
      validate_position_sizes snap2 expected_pairs = .ok (v2, rs2) ∧
      verify_opening expected_pairs snap1 snap2 today s =
        .ok (if v1 then ⟨.OPEN, some today⟩
          else if v2 then ⟨.OPEN, some today⟩
          else ⟨.WAITING, s.last_trading_day⟩) := by
  refine ⟨(pureValidate snap1 expected_pairs).1, (pureValidate snap1 expected_pairs).2,
    (pureValidate snap2 expected_pairs).1, (pureValidate snap2 expected_pairs).2,
    by rw [validate_position_sizes_eq], by rw [validate_position_sizes_eq], ?_⟩
  simp only [verify_opening, if_neg hne, validate_position_sizes_eq, except_bind_ok]
  cases hv1 : (pureValidate snap1 expected_pairs).1 with
  | true => simp [hv1, except_pure]
  | false =>
    cases hv2 : (pureValidate snap2 expected_pairs).1 with
    | true => simp [hv1, hv2, except_pure]
    | false => simp [hv1, hv2, except_pure]

theorem C2_witness :
    ∃ v1 rs1 v2 rs2,
      validate_position_sizes [] [⟨"BTC-USD", 1000⟩] = .ok (v1, rs1) ∧
      validate_position_sizes [("BTC-USD", ⟨1/100, "LONG", 0, 100000, 1⟩)]
        [⟨"BTC-USD", 1000⟩] = .ok (v2, rs2) ∧
      verify_opening [⟨"BTC-USD", 1000⟩] []
        [("BTC-USD", ⟨1/100, "LONG", 0, 100000, 1⟩)] 19000 ⟨.OPENING, none⟩ =
        .ok (if v1 then ⟨.OPEN, some 19000⟩
          else if v2 then ⟨.OPEN, some 19000⟩
          else ⟨.WAITING, none⟩) :=
  C2_verify_opening_behaviour [⟨"BTC-USD", 1000⟩] []
    [("BTC-USD", ⟨1/100, "LONG", 0, 100000, 1⟩)] 19000 ⟨.OPENING, none⟩
    (by decide) rfl

theorem natDigitsAux_congr (n : ℕ) :
    ∀ fuel1 fuel2 : ℕ, n ≤ fuel1 → n ≤ fuel2 →
      natDigitsAux fuel1 n = natDigitsAux fuel2 n := by
  induction n using Nat.strong_induction_on with
  | _ n ih =>
    intro fuel1 fuel2 h1 h2
    cases n with
    | zero => cases fuel1 <;> cases fuel2 <;> rfl
    | succ m =>
      cases fuel1 with
      | zero => omega
      | succ f1 =>
        cases fuel2 with
        | zero => omega
        | succ f2 =>
          show (m + 1) % 10 :: natDigitsAux f1 ((m + 1) / 10) =
            (m + 1) % 10 :: natDigitsAux f2 ((m + 1) / 10)
          congr 1
          have hlt : (m + 1) / 10 < m + 1 :=
            Nat.div_lt_self (Nat.succ_pos m) (by norm_num)
          exact ih ((m + 1) / 10) hlt f1 f2 (by omega) (by omega)

theorem natDigitsLE_eq (n : ℕ) :
    natDigitsLE n = if n = 0 then [] else n % 10 :: natDigitsLE (n / 10) := by
  cases n with
  | zero => rfl
  | succ m =>
    rw [if_neg (Nat.succ_ne_zero m)]
    show (m + 1) % 10 :: natDigitsAux m ((m + 1) / 10) =
      (m + 1) % 10 :: natDigitsAux ((m + 1) / 10) ((m + 1) / 10)
    congr 1
    have hlt : (m + 1) / 10 < m + 1 :=
      Nat.div_lt_self (Nat.succ_pos m) (by norm_num)
    exact natDigitsAux_congr ((m + 1) / 10) m ((m + 1) / 10) (by omega) (by omega)

theorem natDigitsLE_mul_pow10 (a : ℕ) (ha : a ≠ 0) :
    ∀ k : ℕ, natDigitsLE (a * 10 ^ k) = List.replicate k 0 ++ natDigitsLE a := by
  intro k
  induction k with
  | zero => simp
  | succ k ih =>
    have hne : a * 10 ^ (k + 1) ≠ 0 :=
      mul_ne_zero ha (pow_ne_zero _ (by norm_num))
    have hsplit : a * 10 ^ (k + 1) = a * 10 ^ k * 10 := by ring
    rw [natDigitsLE_eq, if_neg hne, hsplit, Nat.mul_mod_left,
      Nat.mul_div_cancel _ (by norm_num : (0:ℕ) < 10), ih, List.replicate_succ]
    rfl

theorem natDigitsLE_length_le (k : ℕ) :
    ∀ n : ℕ, n < 10 ^ k → (natDigitsLE n).length ≤ k := by
  induction k with
  | zero =>
    intro n h
    have hn : n = 0 := by omega
    subst hn
    exact Nat.le_refl 0
  | succ k ih =>
    intro n h
    by_cases hn : n = 0
    · subst hn
      exact Nat.zero_le _
    · rw [natDigitsLE_eq, if_neg hn]
      simp only [List.length_cons]
      have hdiv : n / 10 < 10 ^ k := by
        rw [Nat.div_lt_iff_lt_mul (by norm_num : (0:ℕ) < 10)]
        calc n < 10 ^ (k + 1) := h
          _ = 10 ^ k * 10 := by ring
      exact Nat.succ_le_succ (ih (n / 10) hdiv)

theorem digitChar_ne_zeroChar {x : ℕ} (h9 : x ≤ 9) (h0 : x ≠ 0) :
    digitChar x ≠ '0' := by
  interval_cases x
  · exact absurd rfl h0
  all_goals decide

theorem digitChar_ne_dot {x : ℕ} (h9 : x ≤ 9) : digitChar x ≠ '.' := by
  interval_cases x <;> decide

theorem dropWhile_replicate_append (c : Char) (k : ℕ) (t : List Char) :
    (List.replicate k c ++ t).dropWhile (fun x => x == c) =
      t.dropWhile (fun x => x == c) := by
  induction k with
  | zero => simp
  | succ k ih => simpa [List.replicate_succ, List.dropWhile] using ih

theorem dropTrailing_append_replicate (c : Char) (l : List Char) (k : ℕ) :
    dropTrailing c (l ++ List.replicate k c) = dropTrailing c l := by
  unfold dropTrailing
  rw [List.reverse_append, List.reverse_replicate, dropWhile_replicate_append]

theorem dropTrailing_concat_ne (c x : Char) (l : List Char) (h : x ≠ c) :
    dropTrailing c (l ++ [x]) = l ++ [x] := by
  have hpx : (x == c) = false := by
    simp [h]
  unfold dropTrailing
  rw [List.reverse_append]
  simp only [List.reverse_cons, List.reverse_nil, List.nil_append,
    List.singleton_append, List.dropWhile, hpx]
  simp

theorem natToChars_mul_pow10 (a k : ℕ) (ha : a ≠ 0) :
    natToChars (a * 10 ^ k) = natToChars a ++ List.replicate k '0' := by
  unfold natToChars
  rw [if_neg (mul_ne_zero ha (pow_ne_zero _ (by norm_num : (10:ℕ) ≠ 0))), if_neg ha,
    natDigitsLE_mul_pow10 a ha k, List.reverse_append, List.reverse_replicate,
    List.map_append, List.map_replicate]
  rfl

theorem natToChars_length (n : ℕ) (k : ℕ) (h : n < 10 ^ k) (hn : n ≠ 0) :
    (natToChars n).length ≤ k := by
  unfold natToChars
  rw [if_neg hn]
  simpa using natDigitsLE_length_le k n h

theorem takeAfterDot_cons_cons (R : List Char) :
    takeAfterDot ('0' :: '.' :: R) = some R := by
  show (if '0' = '.' then some ('.' :: R) else takeAfterDot ('.' :: R)) = some R
  rw [if_neg (by decide)]
  show (if '.' = '.' then some R else takeAfterDot R) = some R
  rw [if_pos rfl]

theorem stepDecimalPlaces_of_minPlaces (step : ℚ) (d : ℕ) (h0 : 0 < step)
    (h1 : step < 1) (hmin : isMinPlaces step d) (hd10 : d ≤ 10) :
    stepDecimalPlaces step = d := by
  obtain ⟨⟨n0, hn0⟩, hminlt⟩ := hmin
  have hn0pos : 0 < n0 := by
    have hq : (0:ℚ) < (n0:ℚ) := by
      rw [← hn0]
      positivity
    exact_mod_cast hq
  have hd1 : 1 ≤ d := by
    by_contra hcon
    have hd0 : d = 0 := by omega
    subst hd0
    rw [pow_zero, mul_one] at hn0
    have hge : (1:ℚ) ≤ (n0:ℚ) := by exact_mod_cast hn0pos
    rw [← hn0] at hge
    linarith
  have hndvd : ¬ (10:ℤ) ∣ n0 := by
    rintro ⟨m, hm⟩
    refine hminlt (d - 1) (by omega) ⟨m, ?_⟩
    have hpow : (10:ℚ) ^ d = 10 ^ (d - 1) * 10 := by
      rw [← pow_succ]
      congr 1
      omega
    rw [hpow, ← mul_assoc] at hn0
    have hmq : step * 10 ^ (d - 1) * 10 = (m:ℚ) * 10 := by
      rw [hn0, hm]
      push_cast
      ring
    exact mul_right_cancel₀ (by norm_num : (10:ℚ) ≠ 0) hmq
  have hN : step * 10 ^ 10 = ((n0 * 10 ^ (10 - d) : ℤ) : ℚ) := by
    have hpow : (10:ℚ) ^ 10 = 10 ^ d * 10 ^ (10 - d) := by
      rw [← pow_add]
      congr 1
      omega
    rw [hpow, ← mul_assoc, hn0]
    push_cast
    ring
  rw [stepDecimalPlaces_eval step (n0 * 10 ^ (10 - d)) (not_le.mpr h1) hN]
  have hNpos : 0 < n0 * 10 ^ (10 - d) :=
    mul_pos hn0pos (pow_pos (by norm_num) _)
  have haeq : (n0 * 10 ^ (10 - d)).natAbs = n0.natAbs * 10 ^ (10 - d) := by
    rw [Int.natAbs_mul, Int.natAbs_pow]
    rfl
  set a := n0.natAbs with ha
  have hapos : a ≠ 0 := Int.natAbs_ne_zero.mpr (by omega)
  have hadvd : ¬ (10:ℕ) ∣ a := by
    intro hdvd
    exact hndvd (Int.natAbs_dvd_natAbs.mp (by simpa using hdvd))
  have haless : a < 10 ^ d := by
    have hq : (n0:ℚ) < 10 ^ d := by
      rw [← hn0]
      have hmul := mul_lt_mul_of_pos_right h1 (show (0:ℚ) < 10 ^ d by positivity)
      simpa using hmul
    have hz : n0 < (10:ℤ) ^ d := by exact_mod_cast hq
    have hcast : (a : ℤ) = n0 := Int.natAbs_of_nonneg (le_of_lt hn0pos)
    have hlt : (a : ℤ) < (10:ℤ) ^ d := by
      rw [hcast]
      exact hz
    exact_mod_cast hlt
  have hmlt : a * 10 ^ (10 - d) < 10 ^ 10 := by
    calc a * 10 ^ (10 - d) < 10 ^ d * 10 ^ (10 - d) :=
          (Nat.mul_lt_mul_right (pow_pos (by norm_num) _)).mpr haless
      _ = 10 ^ 10 := by
          rw [← pow_add]
          congr 1
          omega
  have hrender : renderFixed 10 (n0 * 10 ^ (10 - d)) =
      '0' :: '.' :: padZeros 10 (natToChars (a * 10 ^ (10 - d))) := by
    unfold renderFixed
    rw [if_neg (by norm_num : ¬ (10:ℕ) = 0),
      if_neg (not_lt.mpr (le_of_lt hNpos)), haeq,
      Nat.div_eq_of_lt hmlt, Nat.mod_eq_of_lt hmlt]
    rfl
  rw [hrender, natToChars_mul_pow10 a (10 - d) hapos]
  have hdigits : natDigitsLE a = a % 10 :: natDigitsLE (a / 10) := by
    rw [natDigitsLE_eq, if_neg hapos]
  have hntc : natToChars a =
      ((natDigitsLE (a / 10)).reverse.map digitChar) ++ [digitChar (a % 10)] := by
    unfold natToChars
    rw [if_neg hapos, hdigits]
    simp
  have hmod9 : a % 10 ≤ 9 := by omega
  have hmod0 : a % 10 ≠ 0 := fun hz => hadvd (Nat.dvd_of_mod_eq_zero hz)
  have hLa : (natToChars a).length = (natDigitsLE (a / 10)).length + 1 := by
    rw [hntc]
    simp
  have hlen : (natToChars a).length ≤ d := natToChars_length a d haless hapos
  unfold placesOfChars
  rw [show padZeros 10 (natToChars a ++ List.replicate (10 - d) '0') =
      List.replicate (10 - ((natToChars a).length + (10 - d))) '0' ++
        (natToChars a ++ List.replicate (10 - d) '0') from by
    unfold padZeros
    simp]
  rw [show ('0' :: '.' :: (List.replicate (10 - ((natToChars a).length + (10 - d))) '0' ++
      (natToChars a ++ List.replicate (10 - d) '0'))) =
      ('0' :: '.' :: (List.replicate (10 - ((natToChars a).length + (10 - d))) '0' ++
        natToChars a)) ++ List.replicate (10 - d) '0' from by simp]
  rw [dropTrailing_append_replicate]
  rw [show ('0' :: '.' :: (List.replicate (10 - ((natToChars a).length + (10 - d))) '0' ++
      natToChars a)) =
      ('0' :: '.' :: (List.replicate (10 - ((natToChars a).length + (10 - d))) '0' ++
        (natDigitsLE (a / 10)).reverse.map digitChar)) ++ [digitChar (a % 10)] from by
    rw [hntc]
    simp]
  rw [dropTrailing_concat_ne '0' (digitChar (a % 10)) _
    (digitChar_ne_zeroChar hmod9 hmod0)]
  rw [dropTrailing_concat_ne '.' (digitChar (a % 10)) _ (digitChar_ne_dot hmod9)]
  rw [show ('0' :: '.' :: (List.replicate (10 - ((natToChars a).length + (10 - d))) '0' ++
      (natDigitsLE (a / 10)).reverse.map digitChar)) ++ [digitChar (a % 10)] =
      '0' :: '.' :: ((List.replicate (10 - ((natToChars a).length + (10 - d))) '0' ++
        (natDigitsLE (a / 10)).reverse.map digitChar) ++ [digitChar (a % 10)]) from by
    simp]
  rw [takeAfterDot_cons_cons]
  show ((List.replicate (10 - ((natToChars a).length + (10 - d))) '0' ++
    (natDigitsLE (a / 10)).reverse.map digitChar) ++ [digitChar (a % 10)]).length = d
  simp only [List.length_append, List.length_replicate, List.length_map,
    List.length_reverse, List.length_cons, List.length_nil]
  omega

theorem roundDec_eq_self (d : ℕ) (x : ℚ) (N : ℤ) (h : x * 10 ^ d = (N : ℚ)) :
    roundDec d x = x := by
  rw [roundDec_of_intCast d x N h, ← h, mul_div_assoc, div_self
    (ne_of_gt (show (0:ℚ) < 10 ^ d by positivity)), mul_one]

theorem formatFixed_roundDec (d : ℕ) (x : ℚ) :
    formatFixed d (roundDec d x) = formatFixed d x := by
  unfold formatFixed formatChars roundDec
  rw [div_mul_cancel₀ _ (ne_of_gt (show (0:ℚ) < 10 ^ d by positivity)),
    roundHalfEven_intCast]

theorem quantize_eq_formatFixed_val (value step : ℚ) :
    quantize value step =
      formatFixed (stepDecimalPlaces step) (quantizeVal value step) := by
  unfold quantize quantizeVal
  rw [formatFixed_roundDec]

/-- C8 (amended): `quantize` returns `ceil(value/step) * step`, rounded to 10
decimal digits, formatted with exactly as many decimal places as the step
has: 0 when `step ≥ 1`, and the step's (minimal) number of decimal places
when `step < 1` has at most 10 of them; in particular
`quantize(100.001, 0.01) = "100.01"`, `quantize(100.00, 0.01) = "100.00"`,
and `quantize(7, 1) = "7"`. (For a step needing more than 10 decimal places
the width is instead derived from the step's 10-digit fixed rendering: see
the counterexample.) -/
theorem C8_quantize_format :
    quantize (100001/1000) (1/100) = "100.01" ∧
    quantize 100 (1/100) = "100.00" ∧
    quantize 7 1 = "7" ∧
    (∀ value step : ℚ, 0 < step →
      (1 ≤ step →
        quantize value step =
          formatFixed 0 (roundDec 10 ((⌈value / step⌉ : ℤ) * step))) ∧
      (∀ d : ℕ, step < 1 → d ≤ 10 → isMinPlaces step d →
        quantize value step =
          formatFixed d (roundDec 10 ((⌈value / step⌉ : ℤ) * step)))) := by
  refine ⟨?_, ?_, ?_, ?_⟩
  · have h := quantize_eval (100001/1000) (1/100) 10001 (10001 * 10 ^ 8) 10001 2
      stepDecimalPlaces_centi
      (by rw [Int.ceil_eq_iff]; norm_num) (by norm_num) (by norm_num)
    rw [h.1]
    decide
  · have h := quantize_eval 100 (1/100) 10000 (10 ^ 12) 10000 2
      stepDecimalPlaces_centi
      (by rw [Int.ceil_eq_iff]; norm_num) (by norm_num) (by norm_num)
    rw [h.1]
    decide
  · have hd : stepDecimalPlaces 1 = 0 := by
      unfold stepDecimalPlaces
      rw [if_pos le_rfl]
    have h := quantize_eval 7 1 7 (7 * 10 ^ 10) 7 0 hd
      (by rw [Int.ceil_eq_iff]; norm_num) (by norm_num) (by norm_num)
    rw [h.1]
    decide
  · intro value step hpos
    constructor
    · intro hge
      unfold quantize quantizeRaw
      rw [show stepDecimalPlaces step = 0 from by
        unfold stepDecimalPlaces
        rw [if_pos hge]]
    · intro d hlt hd10 hmin
      unfold quantize quantizeRaw
      rw [stepDecimalPlaces_of_minPlaces step d hpos hlt hmin hd10]

theorem C8_witness :
    quantize 3 (1/4) =
      formatFixed 2 (roundDec 10 ((⌈(3:ℚ) / (1/4)⌉ : ℤ) * (1/4))) := by
  have hmin : isMinPlaces (1/4) 2 := by
    constructor
    · exact ⟨25, by norm_num⟩
    · intro e he
      interval_cases e
      · rintro ⟨n, hn⟩
        have h4 : ((4 * n : ℤ) : ℚ) = 1 := by
          push_cast
          rw [← hn]
          norm_num
        have h4' : (4 * n : ℤ) = 1 := by exact_mod_cast h4
        omega
      · rintro ⟨n, hn⟩
        have h2 : ((2 * n : ℤ) : ℚ) = 5 := by
          push_cast
          rw [← hn]
          norm_num
        have h2' : (2 * n : ℤ) = 5 := by exact_mod_cast h2
        omega
  exact (C8_quantize_format.2.2.2 3 (1/4) (by norm_num)).2 2 (by norm_num)
    (by norm_num) hmin

/-- C8 counterexample: the step `2e-11` is a decimal with 11 places
(`step * 10^11 = 2` but `step * 10^10` is not an integer), yet
`quantize 3 (2e-11)` formats with 0 decimal places and returns `"3"`, not the
11-place formatting `"3.00000000000"` of the quantized figure. -/
theorem C8_counterexample :
    isMinPlaces (2/10^11) 11 ∧
    quantize 3 (2/10^11) = "3" ∧
    formatFixed 11 (roundDec 10 ((⌈(3:ℚ) / (2/10^11)⌉ : ℤ) * (2/10^11))) =
      "3.00000000000" ∧
    ("3" : String) ≠ "3.00000000000" := by
  have hc : (⌈(3:ℚ) / (2/10^11)⌉ : ℤ) = 15 * 10 ^ 10 := by
    rw [Int.ceil_eq_iff]
    norm_num
  have hx : ((15 * 10 ^ 10 : ℤ) : ℚ) * (2/10^11) = 3 := by
    push_cast
    norm_num
  have hraw : roundDec 10 (((15 * 10 ^ 10 : ℤ) : ℚ) * (2/10^11)) = 3 := by
    rw [hx]
    exact roundDec_eq_self 10 3 (3 * 10 ^ 10) (by norm_num)
  refine ⟨⟨⟨2, by norm_num⟩, ?_⟩, ?_, ?_, by decide⟩
  · intro e he
    rintro ⟨n, hn⟩
    have hsplit : (10:ℚ) ^ e * 10 ^ (11 - e) = 10 ^ 11 := by
      rw [← pow_add]
      congr 1
      omega
    have hq : ((2:ℚ)/10^11 * 10 ^ e) * 10 ^ (11 - e) = 2 := by
      calc ((2:ℚ)/10^11 * 10 ^ e) * 10 ^ (11 - e)
          = 2/10^11 * (10 ^ e * 10 ^ (11 - e)) := by ring
        _ = 2/10^11 * 10 ^ 11 := by rw [hsplit]
        _ = 2 := by norm_num
    have h2 : (n : ℚ) * 10 ^ (11 - e) = 2 := by
      rw [← hn]
      exact hq
    have h2' : n * 10 ^ (11 - e) = 2 := by exact_mod_cast h2
    have hdvd : (10:ℤ) ∣ n * 10 ^ (11 - e) :=
      dvd_mul_of_dvd_right (dvd_pow_self 10 (by omega : 11 - e ≠ 0)) n
    rw [h2'] at hdvd
    omega
  · have hrh : roundHalfEven ((2:ℚ)/10^11 * 10 ^ 10) = 0 := by
      unfold roundHalfEven
      norm_num
    have hd : stepDecimalPlaces (2/10^11) = 0 := by
      unfold stepDecimalPlaces formatChars
      rw [if_neg (by norm_num), hrh]
      decide
    unfold quantize quantizeRaw
    rw [hd, hc, hraw]
    rw [formatFixed_eval 0 3 3 (by norm_num)]
    decide
  · rw [hc, hraw]
    rw [formatFixed_eval 11 3 (3 * 10 ^ 11) (by norm_num)]
    decide

/-- C9 (amended): for every value and every positive step that is a decimal
number -- an integer when `step ≥ 1`, a decimal with at most 10 decimal
places when `step < 1` -- the numeric value denoted by the string
`quantize value step` is at least the input value: quantization rounds up,
never down; the second conjunct ties the returned string to that numeric
value. -/
theorem C9_quantize_rounds_up (value step : ℚ) (h0 : 0 < step)
    (hint : 1 ≤ step → hasPlaces step 0)
    (hdec : step < 1 → hasPlaces step 10) :
    value ≤ quantizeVal value step ∧
    quantize value step =
      formatFixed (stepDecimalPlaces step) (quantizeVal value step) := by
  refine ⟨?_, quantize_eq_formatFixed_val value step⟩
  have hceil : value ≤ (⌈value / step⌉ : ℚ) * step := by
    calc value = value / step * step := (div_mul_cancel₀ value (ne_of_gt h0)).symm
      _ ≤ (⌈value / step⌉ : ℚ) * step :=
        mul_le_mul_of_nonneg_right (Int.le_ceil (value / step)) (le_of_lt h0)
  rcases le_or_lt 1 step with hge | hlt
  · obtain ⟨n, hn⟩ := hint hge
    rw [pow_zero, mul_one] at hn
    have hd0 : stepDecimalPlaces step = 0 := by
      unfold stepDecimalPlaces
      rw [if_pos hge]
    have hraw : quantizeRaw value step = (⌈value / step⌉ : ℚ) * step := by
      unfold quantizeRaw
      exact roundDec_eq_self 10 _ (⌈value / step⌉ * n * 10 ^ 10)
        (by rw [hn]; push_cast; ring)
    unfold quantizeVal
    rw [hd0, hraw, roundDec_eq_self 0 _ (⌈value / step⌉ * n)
      (by rw [hn]; push_cast; ring)]
    exact hceil
  · have hex : ∃ e, hasPlaces step e := ⟨10, hdec hlt⟩
    haveI : DecidablePred (hasPlaces step) := Classical.decPred _
    have hfind : hasPlaces step (Nat.find hex) := Nat.find_spec hex
    have hmin : ∀ e < Nat.find hex, ¬ hasPlaces step e :=
      fun e he => Nat.find_min hex he
    have hle10 : Nat.find hex ≤ 10 := Nat.find_min' hex (hdec hlt)
    have hsd : stepDecimalPlaces step = Nat.find hex :=
      stepDecimalPlaces_of_minPlaces step _ h0 hlt ⟨hfind, hmin⟩ hle10
    obtain ⟨n0, hn0⟩ := hfind
    obtain ⟨N10, hN10⟩ := hdec hlt
    have hraw : quantizeRaw value step = (⌈value / step⌉ : ℚ) * step := by
      unfold quantizeRaw
      exact roundDec_eq_self 10 _ (⌈value / step⌉ * N10)
        (by rw [mul_assoc, hN10]; push_cast; ring)
    unfold quantizeVal
    rw [hsd, hraw, roundDec_eq_self (Nat.find hex) _ (⌈value / step⌉ * n0)
      (by rw [mul_assoc, hn0]; push_cast; ring)]
    exact hceil

theorem C9_witness :
    (3:ℚ) ≤ quantizeVal 3 (1/4) ∧
    quantize 3 (1/4) =
      formatFixed (stepDecimalPlaces (1/4)) (quantizeVal 3 (1/4)) :=
  C9_quantize_rounds_up 3 (1/4) (by norm_num)
    (fun h => absurd h (by norm_num))
    (fun _ => ⟨25 * 10 ^ 8, by norm_num⟩)

/-- C9 counterexample: `quantize(4.4, 1.5)` computes `ceil(4.4/1.5)*1.5 =
4.5`, then formats it with 0 decimal places (step ≥ 1), rounding half to
even: the result is the string `"4"`, whose numeric value 4 is below the
input 4.4 -- quantization can round down through the final formatting. -/
theorem C9_counterexample :
    quantize (22/5) (3/2) = "4" ∧
    ratOfDecimalString (quantize (22/5) (3/2)) = 4 ∧
    (4:ℚ) < 22/5 := by
  have hd : stepDecimalPlaces (3/2) = 0 := by
    unfold stepDecimalPlaces
    rw [if_pos (by norm_num)]
  have hc : (⌈(22:ℚ)/5 / (3/2)⌉ : ℤ) = 3 := by
    rw [Int.ceil_eq_iff]
    norm_num
  have hraw : quantizeRaw (22/5) (3/2) = 9/2 := by
    unfold quantizeRaw
    rw [hc, roundDec_eq_self 10 _ (45 * 10 ^ 9) (by push_cast; norm_num)]
    norm_num
  have hrh : roundHalfEven ((9:ℚ)/2 * 10 ^ 0) = 4 := by
    unfold roundHalfEven
    norm_num
  have hstr : quantize (22/5) (3/2) = "4" := by
    unfold quantize formatFixed formatChars
    rw [hd, hraw, hrh]
    decide
  refine ⟨hstr, ?_, by norm_num⟩
  rw [hstr]
  decide

theorem if_lt_eq_max (a m : ℚ) : (if a < m then m else a) = max a m := by
  rcases le_or_lt m a with h | h
  · rw [if_neg (not_lt.mpr h), max_eq_left h]
  · rw [if_pos h, max_eq_right (le_of_lt h)]

theorem openOrder_eq_spec (buffer : ℚ) (prices : String → ℚ × ℚ)
    (precisions : String → MarketPrecision) (isLong : Bool) (cfg : PairConfig) :
    openOrder buffer prices precisions isLong cfg =
      specOpenOrder buffer prices precisions isLong cfg := by
  unfold openOrder specOpenOrder
  rw [if_lt_eq_max]

theorem openLeg_spec (buffer : ℚ) (prices : String → ℚ × ℚ)
    (precisions : String → MarketPrecision) (placeLeg : ℕ → Bool)
    (isLong : Bool) (cfg : PairConfig)
    (hq : quantizeVal (legPriceRaw buffer prices isLong cfg)
      ((precisions cfg.pair).min_price_change) ≠ 0) :
    openLeg buffer prices precisions placeLeg isLong cfg =
      (placeLeg 0 || placeLeg 1,
        if placeLeg 0 then
          [VenueAction.place (specOpenOrder buffer prices precisions isLong cfg)]
        else
          [VenueAction.place (specOpenOrder buffer prices precisions isLong cfg),
            VenueAction.place (specOpenOrder buffer prices precisions isLong cfg)]) := by
  unfold openLeg
  rw [if_neg hq]
  simp only [openOrder_eq_spec]
  cases h0 : placeLeg 0 with
  | true => simp
  | false => simp

theorem runOpenLegs_keys (buffer : ℚ) (prices : String → ℚ × ℚ)
    (precisions : String → MarketPrecision) (place : ℕ → ℕ → Bool) :
    ∀ (legs : List (Bool × PairConfig)) (i : ℕ),
      (runOpenLegs buffer prices precisions place i legs).map (fun r => r.1) =
        legs.map (fun leg => leg.2.pair)
  | [], _ => rfl
  | leg :: rest, i => by
    simp [runOpenLegs, runOpenLegs_keys buffer prices precisions place rest (i + 1)]

theorem runOpenLegs_all (buffer : ℚ) (prices : String → ℚ × ℚ)
    (precisions : String → MarketPrecision) (place : ℕ → ℕ → Bool) :
    ∀ (legs : List (Bool × PairConfig)) (i : ℕ),
      (∀ leg ∈ legs, quantizeVal (legPriceRaw buffer prices leg.1 leg.2)
        ((precisions leg.2.pair).min_price_change) ≠ 0) →
      ((runOpenLegs buffer prices precisions place i legs).all
          (fun r => r.2.1) = true ↔
        ∀ j < legs.length, (place (i + j) 0 || place (i + j) 1) = true)
  | [], i, _ => by
    rw [show runOpenLegs buffer prices precisions place i [] = [] from rfl]
    simp
  | leg :: rest, i, hq => by
    obtain ⟨isLong, cfg⟩ := leg
    show ((( cfg.pair, openLeg buffer prices precisions (place i) isLong cfg) ::
      runOpenLegs buffer prices precisions place (i + 1) rest).all
        (fun r => r.2.1) = true ↔ _)
    rw [openLeg_spec buffer prices precisions (place i) isLong cfg
      (hq (isLong, cfg) (List.mem_cons_self _ _)), List.all_cons, Bool.and_eq_true]
    rw [runOpenLegs_all buffer prices precisions place rest (i + 1)
      (fun l hl => hq l (List.mem_cons_of_mem _ hl))]
    constructor
    · rintro ⟨h0, hrest⟩ j hj
      cases j with
      | zero => simpa using h0
      | succ j' =>
        rw [show i + (j' + 1) = i + 1 + j' by omega]
        apply hrest
        simp only [List.length_cons] at hj
        omega
    · intro h
      refine ⟨?_, fun j hj => ?_⟩
      · simpa using h 0 (by simp)
      · rw [show i + 1 + j = i + (j + 1) by omega]
        apply h
        simp only [List.length_cons]
        omega

theorem runOpenLegs_trace (buffer : ℚ) (prices : String → ℚ × ℚ)
    (precisions : String → MarketPrecision) (place : ℕ → ℕ → Bool) :
    ∀ (legs : List (Bool × PairConfig)) (i : ℕ),
      (∀ leg ∈ legs, quantizeVal (legPriceRaw buffer prices leg.1 leg.2)
        ((precisions leg.2.pair).min_price_change) ≠ 0) →
      (runOpenLegs buffer prices precisions place i legs).foldr
        (fun r acc => r.2.2 ++ acc) [] =
        specOpenTrace buffer prices precisions place i legs
  | [], _, _ => rfl
  | leg :: rest, i, hq => by
    obtain ⟨isLong, cfg⟩ := leg
    show ((( cfg.pair, openLeg buffer prices precisions (place i) isLong cfg) ::
      runOpenLegs buffer prices precisions place (i + 1) rest).foldr
        (fun r acc => r.2.2 ++ acc) [] = _)
    rw [List.foldr_cons, openLeg_spec buffer prices precisions (place i) isLong cfg
      (hq (isLong, cfg) (List.mem_cons_self _ _))]
    rw [runOpenLegs_trace buffer prices precisions place rest (i + 1)
      (fun l hl => hq l (List.mem_cons_of_mem _ hl))]
    simp [specOpenTrace]

theorem map_pair_all (l : List (String × Bool × List VenueAction)) :
    (l.map (fun r => (r.1, r.2.1))).all (fun p => p.2) =
      l.all (fun r => r.2.1) := by
  induction l with
  | nil => rfl
  | cons a t ih => simp [ih]

/-- C4 (amended): for a non-empty basket whose pair names are distinct across
all legs and whose quantized leg prices are non-zero, the open operation
reports success iff, for every leg, the first or the retried placement
succeeded, and the emitted venue trace is a cancel-all followed, per leg in
order, by one IOC limit order at the buffered quantized price (ask side for
longs, bid side for shorts) with the claim's quantity -- repeated exactly
once more if the first attempt failed, later legs unaffected. -/
theorem C4_open_all_positions (buffer : ℚ)
    (long_pairs short_pairs : List PairConfig)
    (prices : String → ℚ × ℚ) (precisions : String → MarketPrecision)
    (place : ℕ → ℕ → Bool)
    (hne : legsOf long_pairs short_pairs ≠ [])
    (hnd : ((legsOf long_pairs short_pairs).map (fun leg => leg.2.pair)).Nodup)
    (hq : ∀ leg ∈ legsOf long_pairs short_pairs,
      quantizeVal (legPriceRaw buffer prices leg.1 leg.2)
        ((precisions leg.2.pair).min_price_change) ≠ 0) :
    ((open_all_positions buffer long_pairs short_pairs prices precisions place).1
        = true ↔
      ∀ j < (legsOf long_pairs short_pairs).length,
        (place j 0 || place j 1) = true) ∧
    (open_all_positions buffer long_pairs short_pairs prices precisions place).2 =
      VenueAction.cancelAllOrders ::
        specOpenTrace buffer prices precisions place 0
          (legsOf long_pairs short_pairs) := by
  have hpairs : ¬ (long_pairs.map PairConfig.pair ++
      short_pairs.map PairConfig.pair = []) := by
    intro h
    apply hne
    obtain ⟨h1, h2⟩ := List.append_eq_nil.mp h
    unfold legsOf
    rw [List.map_eq_nil_iff.mp h1, List.map_eq_nil_iff.mp h2]
    rfl
  have hfst : (open_all_positions buffer long_pairs short_pairs prices precisions
      place).1 =
      ((runOpenLegs buffer prices precisions place 0
        (legsOf long_pairs short_pairs)).foldl
        (fun acc r => dictInsert acc r.1 r.2.1) []).all (fun p => p.2) := by
    unfold open_all_positions
    rw [if_neg hpairs]
  have hsnd : (open_all_positions buffer long_pairs short_pairs prices precisions
      place).2 =
      VenueAction.cancelAllOrders ::
        (runOpenLegs buffer prices precisions place 0
          (legsOf long_pairs short_pairs)).foldr (fun r acc => r.2.2 ++ acc) [] := by
    unfold open_all_positions
    rw [if_neg hpairs]
  constructor
  · rw [hfst]
    have hndr : ((runOpenLegs buffer prices precisions place 0
        (legsOf long_pairs short_pairs)).map (fun r => r.1)).Nodup := by
      rw [runOpenLegs_keys]
      exact hnd
    have hfold := foldl_dictInsert_eq_append
      (fun r : String × Bool × List VenueAction => r.1) (fun r => r.2.1)
      (runOpenLegs buffer prices precisions place 0 (legsOf long_pairs short_pairs))
      [] (fun s _ p hp => absurd hp (List.not_mem_nil p)) hndr
    rw [List.nil_append] at hfold
    rw [hfold, map_pair_all]
    have h := runOpenLegs_all buffer prices precisions place
      (legsOf long_pairs short_pairs) 0 hq
    simpa using h
  · rw [hsnd, runOpenLegs_trace buffer prices precisions place
      (legsOf long_pairs short_pairs) 0 hq]

theorem quantizeVal_openPrice : quantizeVal 50375 (1/100) = 5037500 / 10 ^ 2 :=
  (quantize_eval 50375 (1/100) 5037500 (50375 * 10 ^ 10) 5037500 2
    stepDecimalPlaces_centi (by rw [Int.ceil_eq_iff]; norm_num) (by norm_num)
    (by norm_num)).2

theorem quantizeVal_closePrice :
    quantizeVal (4952575/100) (1/100) = 4952575 / 10 ^ 2 :=
  (quantize_eval (4952575/100) (1/100) 4952575 (4952575 * 10 ^ 8) 4952575 2
    stepDecimalPlaces_centi (by rw [Int.ceil_eq_iff]; norm_num) (by norm_num)
    (by norm_num)).2

theorem C4_witness :
    ((open_all_positions PRICE_BUFFER [⟨"BTC-USD", 1000⟩] []
        (fun _ => (50000, 49900)) (fun _ => ⟨5, 2/10^4, 1/10^4, 1/100⟩)
        (fun _ _ => true)).1 = true ↔
      ∀ j < (legsOf [⟨"BTC-USD", 1000⟩] ([] : List PairConfig)).length,
        ((fun _ _ => true) j 0 || (fun _ _ => true) j 1) = true) ∧
    (open_all_positions PRICE_BUFFER [⟨"BTC-USD", 1000⟩] []
        (fun _ => (50000, 49900)) (fun _ => ⟨5, 2/10^4, 1/10^4, 1/100⟩)
        (fun _ _ => true)).2 =
      VenueAction.cancelAllOrders ::
        specOpenTrace PRICE_BUFFER (fun _ => (50000, 49900))
          (fun _ => ⟨5, 2/10^4, 1/10^4, 1/100⟩) (fun _ _ => true) 0
          (legsOf [⟨"BTC-USD", 1000⟩] []) := by
  apply C4_open_all_positions PRICE_BUFFER [⟨"BTC-USD", 1000⟩] []
    (fun _ => (50000, 49900)) (fun _ => ⟨5, 2/10^4, 1/10^4, 1/100⟩)
    (fun _ _ => true) (by decide) (by decide)
  intro leg hleg
  have hleg' : leg = (true, ⟨"BTC-USD", 1000⟩) := by
    simpa [legsOf] using hleg
  subst hleg'
  have hlp : legPriceRaw PRICE_BUFFER (fun _ => (50000, 49900)) true
      ⟨"BTC-USD", 1000⟩ = 50375 := by
    norm_num [legPriceRaw, PRICE_BUFFER]
  show quantizeVal (legPriceRaw PRICE_BUFFER (fun _ => (50000, 49900)) true
    ⟨"BTC-USD", 1000⟩) (1/100) ≠ 0
  rw [hlp, quantizeVal_openPrice]
  norm_num

/-- C4 counterexample: (a) an empty basket returns failure although every leg
(vacuously) succeeded, so "success iff every leg's final placement succeeded"
fails; (b) with the same market "P" as both a long and a short leg, the long
leg's two placements both fail while the short leg's first succeeds, yet the
operation reports success: the results dict keeps only the last leg per
market name. -/
theorem C4_counterexample :
    (open_all_positions PRICE_BUFFER [] [] (fun _ => (50000, 49900))
        (fun _ => ⟨5, 2/10^4, 1/10^4, 1/100⟩) (fun _ _ => true) =
      (false, [VenueAction.cancelAllOrders])) ∧
    ((open_all_positions PRICE_BUFFER [⟨"P", 1000⟩] [⟨"P", 1000⟩]
        (fun _ => (50000, 49900)) (fun _ => ⟨5, 2/10^4, 1/10^4, 1/100⟩)
        (fun i _ => decide (i = 1))).1 = true ∧
      ((fun (i : ℕ) (_ : ℕ) => decide (i = 1)) 0 0 ||
        (fun (i : ℕ) (_ : ℕ) => decide (i = 1)) 0 1) = false) := by
  constructor
  · rfl
  · constructor
    · have hq1 : quantizeVal (legPriceRaw PRICE_BUFFER (fun _ => (50000, 49900))
          true ⟨"P", 1000⟩) (1/100) ≠ 0 := by
        rw [show legPriceRaw PRICE_BUFFER (fun _ => (50000, 49900)) true
          ⟨"P", 1000⟩ = 50375 from by norm_num [legPriceRaw, PRICE_BUFFER]]
        rw [quantizeVal_openPrice]
        norm_num
      have hq2 : quantizeVal (legPriceRaw PRICE_BUFFER (fun _ => (50000, 49900))
          false ⟨"P", 1000⟩) (1/100) ≠ 0 := by
        rw [show legPriceRaw PRICE_BUFFER (fun _ => (50000, 49900)) false
          ⟨"P", 1000⟩ = 4952575/100 from by norm_num [legPriceRaw, PRICE_BUFFER]]
        rw [quantizeVal_closePrice]
        norm_num
      have h1 := openLeg_spec PRICE_BUFFER (fun _ => (50000, 49900))
        (fun _ => ⟨5, 2/10^4, 1/10^4, 1/100⟩)
        ((fun (i : ℕ) (_ : ℕ) => decide (i = 1)) 0) true ⟨"P", 1000⟩ hq1
      have h2 := openLeg_spec PRICE_BUFFER (fun _ => (50000, 49900))
        (fun _ => ⟨5, 2/10^4, 1/10^4, 1/100⟩)
        ((fun (i : ℕ) (_ : ℕ) => decide (i = 1)) 1) false ⟨"P", 1000⟩ hq2
      have hfst : (open_all_positions PRICE_BUFFER [⟨"P", 1000⟩] [⟨"P", 1000⟩]
          (fun _ => (50000, 49900)) (fun _ => ⟨5, 2/10^4, 1/10^4, 1/100⟩)
          (fun i _ => decide (i = 1))).1 =
          ((runOpenLegs PRICE_BUFFER (fun _ => (50000, 49900))
            (fun _ => ⟨5, 2/10^4, 1/10^4, 1/100⟩) (fun i _ => decide (i = 1)) 0
            (legsOf [⟨"P", 1000⟩] [⟨"P", 1000⟩])).foldl
            (fun acc r => dictInsert acc r.1 r.2.1) []).all (fun p => p.2) := by
        unfold open_all_positions
        rw [if_neg (by decide)]
      rw [hfst]
      rw [show legsOf [(⟨"P", 1000⟩ : PairConfig)] [⟨"P", 1000⟩] =
        [(true, ⟨"P", 1000⟩), (false, ⟨"P", 1000⟩)] from rfl]
      rw [show runOpenLegs PRICE_BUFFER (fun _ => (50000, 49900))
          (fun _ => ⟨5, 2/10^4, 1/10^4, 1/100⟩) (fun i _ => decide (i = 1)) 0
          [(true, ⟨"P", 1000⟩), (false, ⟨"P", 1000⟩)] =
        [("P", openLeg PRICE_BUFFER (fun _ => (50000, 49900))
            (fun _ => ⟨5, 2/10^4, 1/10^4, 1/100⟩)
            ((fun (i : ℕ) (_ : ℕ) => decide (i = 1)) 0) true ⟨"P", 1000⟩),
          ("P", openLeg PRICE_BUFFER (fun _ => (50000, 49900))
            (fun _ => ⟨5, 2/10^4, 1/10^4, 1/100⟩)
            ((fun (i : ℕ) (_ : ℕ) => decide (i = 1)) 1) false ⟨"P", 1000⟩)]
        from rfl]
      rw [h1, h2]
      simp [dictInsert]
    · decide

theorem closeRun_eq_spec (buffer : ℚ) (prices : String → ℚ × ℚ)
    (precisions : String → MarketPrecision) (place : ℕ → Bool) :
    ∀ (positions : Positions) (i : ℕ),
      closeRun buffer prices precisions place i positions =
        specCloseTrace buffer prices precisions positions
  | [], _ => rfl
  | (pair, position) :: rest, i => by
    by_cases hdust : |position.size| ≤ 1/100000
    · simp only [closeRun, specCloseTrace, if_pos hdust]
      rw [closeRun_eq_spec buffer prices precisions place rest i]
      simp
    · simp only [closeRun, specCloseTrace, if_neg hdust]
      rw [closeRun_eq_spec buffer prices precisions place rest (i + 1)]
      simp [specCloseOrder]

/-- C5 (amended): closing uses the mirror formulas -- a Long position is sold
at the quantized buffered bid, a Short bought back at the quantized buffered
ask, quantity the absolute position size quantized to the step -- with
exactly one IOC attempt per position above the dust threshold; the boolean
outcome of each placement is ignored: no per-leg retry happens and the
operation returns true regardless of leg failures. -/
theorem C5_close_all_positions (buffer : ℚ) (positions : Positions)
    (prices : String → ℚ × ℚ) (precisions : String → MarketPrecision)
    (place : ℕ → Bool) :
    close_all_positions buffer positions prices precisions place =
      (true, if positions = [] then []
        else VenueAction.cancelAllOrders ::
          specCloseTrace buffer prices precisions positions) := by
  unfold close_all_positions
  by_cases he : positions = []
  · rw [if_pos he, if_pos he]
  · rw [if_neg he, if_neg he, closeRun_eq_spec]

/-- C5 counterexample: one open LONG position and a venue on which every
placement fails: the close operation still returns true and emits exactly one
(unretried) close attempt, so a failing close leg is neither retried nor
surfaced to the caller. -/
theorem C5_counterexample :
    close_all_positions PRICE_BUFFER
        [("BTC-USD", ⟨1/100, "LONG", 0, 100000, 1⟩)]
        (fun _ => (50000, 49900)) (fun _ => ⟨5, 2/10^4, 1/10^4, 1/100⟩)
        (fun _ => false) =
      (true, [VenueAction.cancelAllOrders,
        VenueAction.place ⟨"BTC-USD", .SELL, "0.0100", "49525.75", .IOC⟩]) := by
  have habs : |((1:ℚ)/100)| = 1/100 := by norm_num
  have hd4 : stepDecimalPlaces (1/10^4) = 4 := by
    rw [stepDecimalPlaces_eval (1/10^4) (10 ^ 6) (by norm_num) (by norm_num)]
    decide
  have hqty := quantize_eval (1/100) (1/10^4) 100 (10 ^ 8) 100 4 hd4
    (by rw [Int.ceil_eq_iff]; norm_num) (by norm_num) (by norm_num)
  have hqty' : quantize (1/100) (1/10^4) = "0.0100" := by
    rw [hqty.1]
    decide
  have hpr : (49900:ℚ) * (1 - PRICE_BUFFER) = 4952575/100 := by
    norm_num [PRICE_BUFFER]
  have hprice := quantize_eval (4952575/100) (1/100) 4952575 (4952575 * 10 ^ 8)
    4952575 2 stepDecimalPlaces_centi
    (by rw [Int.ceil_eq_iff]; norm_num) (by norm_num) (by norm_num)
  have hprice' : quantize (4952575/100) (1/100) = "49525.75" := by
    rw [hprice.1]
    decide
  have hdust : ¬ (|((1:ℚ)/100)| ≤ 1/100000) := by
    rw [habs]
    norm_num
  unfold close_all_positions
  rw [if_neg (by decide :
    ¬ ([("BTC-USD", (⟨1/100, "LONG", 0, 100000, 1⟩ : Position))] = []))]
  simp only [closeRun, if_neg hdust]
  rw [show strUpper "LONG" = "LONG" from rfl]
  rw [if_pos rfl, habs, hpr, hqty', hprice']

end ExtendedBot
